import Mathlib

set_option maxRecDepth 100000

/-!
# Verification of the Marknote rendering and table-of-contents core

Shallow embedding of the algorithmic core of the Marknote application:

* `src/toc_utils.py` — `extract_headings`, `generate_anchor`, `format_toc`;
* `src/main.py`, `MarkdownPreview.set_markdown` — the Mermaid fenced-block
  rewrite, the `[[Title]]` wiki-link rewrite, and the assembly of the final
  HTML document.

Python strings are modelled as `List Char`.  The regular-expression based
substitutions of the source are embedded as explicit left-to-right scanners
that reproduce the Python `re` backtracking semantics of the concrete
patterns used by the source (`` ```mermaid\s*([\s\S]*?)``` ``,
`\[\[([^\]]+)\]\]` and `^(#{1,d})\s+(.+)`).  The scanners take an explicit
fuel argument (always instantiated with the length of the input, which
bounds the number of scan steps) so that they are structurally recursive
and evaluate by `rfl`/`decide`.
-/

/-- The character class matched by Python's `\s` (and stripped by
`str.strip()`) for `str` patterns: ASCII whitespace plus the Unicode
whitespace code points. -/
def isPySpace (c : Char) : Bool :=
  decide (c.toNat ∈ [0x20, 0x9, 0xa, 0xd, 0xb, 0xc, 0x1c, 0x1d, 0x1e, 0x1f,
    0x85, 0xa0, 0x1680, 0x2028, 0x2029, 0x202f, 0x205f, 0x3000]) ||
  decide (0x2000 ≤ c.toNat ∧ c.toNat ≤ 0x200a)

/-- The line-boundary characters recognised by Python's `str.splitlines`
(`\r\n` is additionally treated as a single boundary). -/
def isLineBreak (c : Char) : Bool :=
  decide (c.toNat ∈ [0xa, 0xd, 0xb, 0xc, 0x1c, 0x1d, 0x1e, 0x85, 0x2028, 0x2029])

/-- Python `str.strip()`: remove leading and trailing whitespace. -/
def pyStrip (l : List Char) : List Char :=
  ((l.dropWhile isPySpace).reverse.dropWhile isPySpace).reverse

/-- Worker for `splitlines`; `cur` holds the (reversed) characters of the
line being accumulated.  A trailing line terminator does not produce a
final empty line, exactly as in Python. -/
def splitlinesAux (cur : List Char) : List Char → List (List Char)
  | [] => if cur = [] then [] else [cur.reverse]
  | [c] =>
    if isLineBreak c then [cur.reverse] else [(c :: cur).reverse]
  | c :: d :: rest =>
    if isLineBreak c then
      if c = '\r' ∧ d = '\n' then cur.reverse :: splitlinesAux [] rest
      else cur.reverse :: splitlinesAux [] (d :: rest)
    else splitlinesAux (c :: cur) (d :: rest)

/-- Python `str.splitlines()`. -/
def splitlines (l : List Char) : List (List Char) :=
  splitlinesAux [] l

mutual

/-- `re.sub(r'[\s]+', '-', anchor)` from `generate_anchor`: every maximal
run of whitespace becomes a single hyphen. -/
def collapseWs : List Char → List Char
  | [] => []
  | c :: rest => if isPySpace c then '-' :: skipWs rest else c :: collapseWs rest

/-- Helper of `collapseWs`: skip the remainder of a whitespace run whose
first character has already been replaced by a hyphen. -/
def skipWs : List Char → List Char
  | [] => []
  | c :: rest => if isPySpace c then skipWs rest else c :: collapseWs rest

end

/-- The character class kept by `re.sub(r'[^a-z0-9\-]', '', anchor)`. -/
def isAnchorChar (c : Char) : Bool :=
  decide (('a' ≤ c ∧ c ≤ 'z') ∨ ('0' ≤ c ∧ c ≤ '9') ∨ c = '-')

/-- `toc_utils.generate_anchor`: GitHub-style anchor from heading text.
Lower-casing is modelled on the ASCII range (`Char.toLower`); the claims
under verification only exercise ASCII heading text. -/
def generate_anchor (text : List Char) : List Char :=
  let a1 := (pyStrip text).map Char.toLower
  let a2 := collapseWs a1
  a2.filter isAnchorChar

/-- The sub-pattern `(.+)` applied at the current position: one or more
characters other than a newline, matched greedily; `none` when it cannot
match even one character. -/
def dotPlus (l : List Char) : Option (List Char) :=
  if l.takeWhile (fun c => c != '\n') = [] then none
  else some (l.takeWhile (fun c => c != '\n'))

/-- The sub-pattern `\s*(.+)` with Python's greedy backtracking: extend the
whitespace run as far as possible, giving characters back (to be consumed
by `.+`) only when the tail cannot complete the match. -/
def spaceStarDot : List Char → Option (List Char)
  | [] => none
  | c :: rest =>
    if isPySpace c then
      match spaceStarDot rest with
      | some g => some g
      | none => dotPlus (c :: rest)
    else dotPlus (c :: rest)

/-- The sub-pattern `\s+(.+)`: at least one whitespace character, then
`\s*(.+)`. -/
def spacePlusDot : List Char → Option (List Char)
  | [] => none
  | c :: rest => if isPySpace c then spaceStarDot rest else none

/-- The pattern `^(#{1,d})\s+(.+)` of `extract_headings`, with the greedy
backtracking of `#{1,d}`: try the longest run of `#` characters not above
the bound first, then shrink.  Returns the length of group 1 and group 2. -/
def hashLoop (line : List Char) : Nat → Option (Nat × List Char)
  | 0 => none
  | k + 1 =>
    if line.take (k + 1) = List.replicate (k + 1) '#' then
      match spacePlusDot (line.drop (k + 1)) with
      | some g => some (k + 1, g)
      | none => hashLoop line k
    else hashLoop line k

/-- A heading record `{level, text, anchor}` as built by
`extract_headings`. -/
structure Heading where
  level : Nat
  text : List Char
  anchor : List Char
deriving DecidableEq, Repr

/-- The body of the `for` loop of `extract_headings`, applied to one line:
match the heading pattern, strip the captured text, skip the line when the
stripped text is empty. -/
def lineHeading (max_depth : Nat) (line : List Char) : Option Heading :=
  match hashLoop line max_depth with
  | none => none
  | some (k, g) =>
    let text := pyStrip g
    if text = [] then none
    else some ⟨k, text, generate_anchor text⟩

/-- `toc_utils.extract_headings`: scan every line of the text for the
heading pattern, up to `max_depth` leading `#` characters. -/
def extract_headings (markdown_text : List Char) (max_depth : Nat := 3) : List Heading :=
  (splitlines markdown_text).filterMap (lineHeading max_depth)

/-- Python string repetition `s * n`. -/
def pyRepeat (s : List Char) (n : Nat) : List Char :=
  (List.replicate n s).flatten

/-- One output line of `format_toc`:
`f"{indent}- [{h['text']}](#{h['anchor']})"` with `indent = '  ' * (h['level'] - 1)`. -/
def tocLine (h : Heading) : List Char :=
  pyRepeat "  ".toList (h.level - 1) ++ "- [".toList ++ h.text
    ++ "](#".toList ++ h.anchor ++ ")".toList

/-- Python `sep.join(lines)`. -/
def joinWith (sep : List Char) : List (List Char) → List Char
  | [] => []
  | [x] => x
  | x :: y :: t => x ++ sep ++ joinWith sep (y :: t)

/-- `toc_utils.format_toc`: empty string for no headings, otherwise the
newline-join of the per-heading lines. -/
def format_toc (headings : List Heading) : List Char :=
  if headings = [] then [] else joinWith ['\n'] (headings.map tocLine)

/-- Spec-side reading of one ToC line (§ "Non-empty input → one line per
heading"): `(level - 1)` repetitions of a 2-space unit followed by
`- [text](#anchor)`.  Stated from the spec's words, to be compared with
the source's `tocLine`. -/
def tocLineSpec (h : Heading) : List Char :=
  (List.replicate (h.level - 1) "  ".toList).flatten
    ++ ("- [".toList ++ h.text ++ "](#".toList ++ h.anchor ++ ")".toList)

/-! ## `MarkdownPreview.set_markdown` (src/main.py)

The two regex substitution stages, the generic-converter stage and the
final document assembly.  `re.sub` scans left to right: at every position
it attempts a match; on success it emits the replacement and resumes after
the match, on failure it copies one character and advances by one. -/

/-- Python prefix test: does `pat` occur at the start of the second list? -/
def begWith : List Char → List Char → Bool
  | [], _ => true
  | _ :: _, [] => false
  | c :: p, d :: l => c == d && begWith p l

/-- Python substring test `pat in s`. -/
def hasSub (pat : List Char) : List Char → Bool
  | [] => pat.isEmpty
  | c :: rest => begWith pat (c :: rest) || hasSub pat rest

/-- `page.replace(' ', '%20')` from `wiki_link_replacer`: every ASCII space
becomes `%20`. -/
def pctSpaces : List Char → List Char
  | [] => []
  | c :: rest => if c = ' ' then '%' :: '2' :: '0' :: pctSpaces rest else c :: pctSpaces rest

/-- `wiki_link_replacer`: for captured interior text, strip it and emit
`<a href="wikilink://{escaped}" class="wikilink">[[{page}]]</a>`. -/
def wikiReplacement (interior : List Char) : List Char :=
  let page := pyStrip interior
  "<a href=\"wikilink://".toList ++ pctSpaces page
    ++ "\" class=\"wikilink\">[[".toList ++ page ++ "]]</a>".toList

/-- The two-character opener `[[` of the wiki-link pattern. -/
def wikiOpen : List Char := ['[', '[']

/-- `wiki_pattern.sub(wiki_link_replacer, text)` for
`wiki_pattern = \[\[([^\]]+)\]\]`: a match needs `[[`, then a non-empty
greedy run of characters other than `]` (the capture), then `]]`.  The fuel
is the remaining number of scan steps; each step consumes at least one
character, so fuel `= length` suffices. -/
def wikiSubF : Nat → List Char → List Char
  | _, [] => []
  | 0, l => l
  | fuel + 1, c :: rest =>
    if c = '[' then
      match rest with
      | [] => [c]
      | d :: rest2 =>
        if d = '[' then
          let interior := rest2.takeWhile (fun x => x != ']')
          let after := rest2.drop interior.length
          if interior ≠ [] ∧ after.take 2 = [']', ']'] then
            wikiReplacement interior ++ wikiSubF fuel (after.drop 2)
          else c :: wikiSubF fuel rest
        else c :: wikiSubF fuel rest
    else c :: wikiSubF fuel rest

/-- The wiki-link substitution stage. -/
def wikiSub (l : List Char) : List Char := wikiSubF l.length l

/-- The literal `` ```mermaid `` opening the mermaid fence pattern. -/
def mOpen : List Char := "```mermaid".toList

/-- A literal triple backtick, the closing delimiter of the pattern. -/
def bt3 : List Char := "```".toList

/-- The marker `<div class="mermaid">` tested by `set_markdown` and opening
the replacement emitted by `mermaid_replacer`. -/
def mermaidMark : List Char := "<div class=\"mermaid\">".toList

/-- The closing tag of the `mermaid_replacer` replacement. -/
def divClose : List Char := "</div>".toList

/-- Index of the first occurrence of ``` ``` ``` in a list, if any: the
position where the lazy group `([\s\S]*?)` of the mermaid pattern stops. -/
def findBt : List Char → Option Nat
  | [] => none
  | c :: rest => if begWith bt3 (c :: rest) then some 0 else (findBt rest).map (· + 1)

/-- `mermaid_pattern.sub(mermaid_replacer, text)` for
`mermaid_pattern = ```mermaid\s*([\s\S]*?)``` ` (re.MULTILINE only affects
`^`/`$`, absent here).  After the literal opener, the greedy `\s*` takes
the maximal whitespace run; the lazy group then captures up to the first
following ``` ``` ``` (no occurrence: no match at this position, since the
skipped characters are whitespace and cannot start ``` ``` ```). -/
def mermaidSubF : Nat → List Char → List Char
  | _, [] => []
  | 0, l => l
  | fuel + 1, c :: rest =>
    if begWith mOpen (c :: rest) then
      let p := (c :: rest).drop mOpen.length
      let w := (p.takeWhile isPySpace).length
      let body := p.drop w
      match findBt body with
      | some j =>
        mermaidMark ++ body.take j ++ divClose ++ mermaidSubF fuel (body.drop (j + 3))
      | none => c :: mermaidSubF fuel rest
    else c :: mermaidSubF fuel rest

/-- The mermaid substitution stage (stage 1 of `set_markdown`). -/
def mermaidSub (l : List Char) : List Char := mermaidSubF l.length l

/-- Number of mermaid-fence matches replaced by stage 1 — the number of
diagram containers the stage produces. -/
def countMermaidF : Nat → List Char → Nat
  | _, [] => 0
  | 0, _ => 0
  | fuel + 1, c :: rest =>
    if begWith mOpen (c :: rest) then
      let p := (c :: rest).drop mOpen.length
      let w := (p.takeWhile isPySpace).length
      let body := p.drop w
      match findBt body with
      | some j => countMermaidF fuel (body.drop (j + 3)) + 1
      | none => countMermaidF fuel rest
    else countMermaidF fuel rest

/-- Number of diagram containers produced by stage 1. -/
def countMermaid (l : List Char) : Nat := countMermaidF l.length l

/-- The text handed to the generic Markdown converter: mermaid blocks
replaced first, then wiki links, over the whole text. -/
def rewrittenText (text : List Char) : List Char := wikiSub (mermaidSub text)

/-- The `injected_js` script block of `set_markdown` (wiki-link click
interception bridge), included in both assembly branches. -/
def injectedJs : List Char :=
  ("\n        <script type=\"text/javascript\" src=\"qrc:///qtwebchannel/qwebchannel.js\"></script>"
   ++ "\n        <script>"
   ++ "\n        document.addEventListener(\"DOMContentLoaded\", function() \x7b"
   ++ "\n            if (typeof QWebChannel !== \x27undefined\x27) \x7b"
   ++ "\n                new QWebChannel(qt.webChannelTransport, function(channel) \x7b"
   ++ "\n                    window.wikilinkBridge = channel.objects.wikilinkBridge;"
   ++ "\n                    document.querySelectorAll(\x27a.wikilink\x27).forEach(function(link) \x7b"
   ++ "\n                        link.addEventListener(\x27click\x27, function(e) \x7b"
   ++ "\n                            e.preventDefault();"
   ++ "\n                            var page = link.textContent.replace(/^\\[\\[|\\]\\]$/g, \x27\x27).trim();"
   ++ "\n                            window.wikilinkBridge.openWikiLink(page);"
   ++ "\n                        \x7d);"
   ++ "\n                    \x7d);"
   ++ "\n                \x7d);"
   ++ "\n            \x7d"
   ++ "\n        \x7d);"
   ++ "\n        </script>"
   ++ "\n        ").toList

/-- Common head of both document templates, through the style block. -/
def styleHead : List Char :=
  ("\n            <html>"
   ++ "\n            <head>"
   ++ "\n                <style>"
   ++ "\n                    body \x7b background: #fff; color: #111; font-family: sans-serif; \x7d"
   ++ "\n                    pre \x7b background-color: #f0f0f0; padding: 10px; border-radius: 5px; overflow-x: auto; \x7d"
   ++ "\n                    code \x7b font-family: \"Fira Mono\", monospace; \x7d"
   ++ "\n                </style>"
   ++ "\n                ").toList

/-- Opening of the mermaid library script-tag reference. -/
def scrOpen : List Char := "<script src=\"".toList

/-- Closing of the mermaid library script-tag reference. -/
def scrClose : List Char := "\"></script>\n                ".toList

/-- The mermaid initialization snippet and the rest of the head/body
opening of the mermaid branch template. -/
def mermaidInit : List Char :=
  ("\n                <script>"
   ++ "\n                document.addEventListener(\"DOMContentLoaded\", function() \x7b"
   ++ "\n                  if (window.mermaid) \x7b"
   ++ "\n                    mermaid.initialize(\x7b startOnLoad: false \x7d);"
   ++ "\n                    mermaid.init(undefined, document.querySelectorAll(\x27.mermaid\x27));"
   ++ "\n                  \x7d"
   ++ "\n                \x7d);"
   ++ "\n                </script>"
   ++ "\n            </head>"
   ++ "\n            <body>").toList

/-- Tail of the mermaid branch template. -/
def mermaidTail : List Char := "</body>\n            </html>\n            ".toList

/-- Middle of the plain branch template, between `injected_js` and the
converted body. -/
def plainMid : List Char := "\n            </head>\n            <body>".toList

/-- Tail of the plain branch template. -/
def plainTail : List Char := "</body>\n            </html>".toList

/-- The `full_html` f-string of the branch taken when
`'<div class="mermaid">' in html_body`. -/
def fullHtmlMermaid (mermaidUrl body : List Char) : List Char :=
  styleHead ++ (scrOpen ++ mermaidUrl ++ scrClose) ++ injectedJs
    ++ mermaidInit ++ body ++ mermaidTail

/-- The `full_html` f-string of the branch taken otherwise. -/
def fullHtmlPlain (body : List Char) : List Char :=
  styleHead ++ injectedJs ++ plainMid ++ body ++ plainTail

/-- `set_markdown` with the generic Markdown converter abstracted as a
function `md` (the source lets the injected `md_parser` play this role,
falling back to `markdown.markdown`): rewrite, convert, then assemble,
choosing the template by the substring test on the converted body.
`mermaidUrl` stands for the file URI of the bundled `mermaid.min.js`
computed by the source from its own location. -/
def set_markdown (md : List Char → List Char) (mermaidUrl text : List Char) : List Char :=
  let body := md (rewrittenText text)
  if hasSub mermaidMark body then fullHtmlMermaid mermaidUrl body
  else fullHtmlPlain body

/-- A stateful generic Markdown converter, as the injected
`markdown.Markdown` parser object is: `convert` may read and update the
parser state, `reset` rewinds it. -/
structure MdConverter (σ : Type) where
  convert : σ → List Char → List Char × σ
  reset : σ → σ

/-- `set_markdown` on the `self.md_parser` branch, state threaded
explicitly: `html_body = parser.convert(text…); parser.reset()`. -/
def set_markdown_stateful {σ : Type} (p : MdConverter σ) (s : σ)
    (mermaidUrl text : List Char) : List Char × σ :=
  let pre := rewrittenText text
  let body := (p.convert s pre).1
  let s1 := (p.convert s pre).2
  let s2 := p.reset s1
  (if hasSub mermaidMark body then fullHtmlMermaid mermaidUrl body
   else fullHtmlPlain body, s2)

/-- Modelled from the spec: the stage-3 generic Markdown-to-HTML converter
is the third-party `markdown` library (configured with `fenced_code`,
`extra`, `md_in_html`), which is not part of this repository.  Only the
raw-HTML-passthrough property stated in the spec ("raw-HTML-passthrough-
inside-markdown") is used here: a document consisting solely of a raw
block-level HTML element converts to that element unchanged.  It is
modelled as the identity and applied only to such documents. -/
def mdPassthrough : List Char → List Char := fun l => l

/-- The marker of the mermaid initialization snippet, present in the head
of the mermaid branch template only. -/
def initSnippet : List Char := "mermaid.initialize(".toList

/-! ## Basic lemmas about `begWith` and `hasSub` -/

theorem begWith_append_self (p y : List Char) : begWith p (p ++ y) = true := by
  induction p with
  | nil => rfl
  | cons c p ih => simp [begWith, ih]

theorem begWith_extend {p x : List Char} (h : begWith p x = true) (y : List Char) :
    begWith p (x ++ y) = true := by
  induction p generalizing x with
  | nil => rfl
  | cons c p ih =>
    cases x with
    | nil => simp [begWith] at h
    | cons d x =>
      simp only [begWith, Bool.and_eq_true, beq_iff_eq] at h
      simp [begWith, h.1, ih h.2]

theorem hasSub_of_begWith {p l : List Char} (h : begWith p l = true) :
    hasSub p l = true := by
  cases l with
  | nil => cases p with
    | nil => rfl
    | cons c p => simp [begWith] at h
  | cons c rest => simp [hasSub, h]

theorem hasSub_append_right {p y : List Char} (h : hasSub p y = true) (x : List Char) :
    hasSub p (x ++ y) = true := by
  induction x with
  | nil => simpa using h
  | cons c x ih => simp [hasSub, ih]

theorem hasSub_append_left {p x : List Char} (h : hasSub p x = true) (y : List Char) :
    hasSub p (x ++ y) = true := by
  induction x with
  | nil =>
    cases p with
    | nil => simpa [hasSub] using hasSub_of_begWith (p := []) (l := y) rfl
    | cons c p => simp [hasSub] at h
  | cons c x ih =>
    simp only [hasSub, Bool.or_eq_true] at h
    rcases h with h | h
    · exact hasSub_of_begWith (begWith_extend h y)
    · simp [hasSub, ih h]

theorem hasSub_middle (p x y : List Char) : hasSub p (x ++ p ++ y) = true := by
  rw [List.append_assoc]
  exact hasSub_append_right (hasSub_of_begWith (begWith_append_self p y)) x

theorem hasSub_cons_false {p : List Char} {c : Char} {l : List Char}
    (h : hasSub p (c :: l) = false) :
    begWith p (c :: l) = false ∧ hasSub p l = false := by
  simpa [hasSub] using h

/-! ## Fuel irrelevance and no-match identity for the scanners -/

theorem wikiSubF_fuel : ∀ (f g : Nat) (l : List Char), l.length ≤ f → l.length ≤ g →
    wikiSubF f l = wikiSubF g l := by
  intro f
  induction f with
  | zero =>
    intro g l hf _
    have : l = [] := List.eq_nil_of_length_eq_zero (Nat.le_zero.mp hf)
    subst this
    cases g <;> rfl
  | succ f ih =>
    intro g l hf hg
    cases l with
    | nil => cases g <;> rfl
    | cons c rest =>
      obtain ⟨g', rfl⟩ : ∃ g', g = g' + 1 := by
        cases g with
        | zero => simp at hg
        | succ g' => exact ⟨g', rfl⟩
      simp only [List.length_cons, Nat.add_le_add_iff_right] at hf hg
      simp only [wikiSubF]
      by_cases hc : c = '['
      · simp only [if_pos hc]
        cases rest with
        | nil => rfl
        | cons d rest2 =>
          by_cases hd : d = '['
          · simp only [if_pos hd]
            by_cases hm : rest2.takeWhile (fun x => x != ']') ≠ [] ∧
                (rest2.drop (rest2.takeWhile (fun x => x != ']')).length).take 2 = [']', ']']
            · simp only [if_pos hm]
              congr 1
              apply ih
              · calc ((rest2.drop (rest2.takeWhile (fun x => x != ']')).length).drop 2).length
                    ≤ rest2.length := by
                      simp only [List.length_drop]
                      omega
                  _ ≤ (d :: rest2).length := by simp
                  _ ≤ f := hf
              · calc ((rest2.drop (rest2.takeWhile (fun x => x != ']')).length).drop 2).length
                    ≤ rest2.length := by
                      simp only [List.length_drop]
                      omega
                  _ ≤ (d :: rest2).length := by simp
                  _ ≤ g' := hg
            · simp only [if_neg hm]
              congr 1
              exact ih g' (d :: rest2) hf hg
          · simp only [if_neg hd]
            congr 1
            exact ih g' (d :: rest2) hf hg
      · simp only [if_neg hc]
        congr 1
        exact ih g' rest hf hg

theorem mermaidSubF_fuel : ∀ (f g : Nat) (l : List Char), l.length ≤ f → l.length ≤ g →
    mermaidSubF f l = mermaidSubF g l := by
  intro f
  induction f with
  | zero =>
    intro g l hf _
    have : l = [] := List.eq_nil_of_length_eq_zero (Nat.le_zero.mp hf)
    subst this
    cases g <;> rfl
  | succ f ih =>
    intro g l hf hg
    cases l with
    | nil => cases g <;> rfl
    | cons c rest =>
      obtain ⟨g', rfl⟩ : ∃ g', g = g' + 1 := by
        cases g with
        | zero => simp at hg
        | succ g' => exact ⟨g', rfl⟩
      simp only [List.length_cons, Nat.add_le_add_iff_right] at hf hg
      simp only [mermaidSubF]
      by_cases hb : begWith mOpen (c :: rest) = true
      · simp only [if_pos hb]
        have hlen : ∀ j, ((((c :: rest).drop mOpen.length).drop
            (((c :: rest).drop mOpen.length).takeWhile isPySpace).length).drop (j + 3)).length
            ≤ rest.length := by
          intro j
          simp only [List.length_drop, List.length_cons]
          omega
        cases hfb : findBt (((c :: rest).drop mOpen.length).drop
            (((c :: rest).drop mOpen.length).takeWhile isPySpace).length) with
        | none =>
          simp only [hfb]
          congr 1
          exact ih g' rest hf hg
        | some j =>
          simp only [hfb]
          congr 1
          exact ih g' _ (le_trans (hlen j) hf) (le_trans (hlen j) hg)
      · simp only [if_neg hb]
        congr 1
        exact ih g' rest hf hg

theorem wikiSubF_id : ∀ (f : Nat) (l : List Char), hasSub wikiOpen l = false →
    wikiSubF f l = l := by
  intro f
  induction f with
  | zero => intro l _; cases l <;> rfl
  | succ f ih =>
    intro l h
    cases l with
    | nil => rfl
    | cons c rest =>
      obtain ⟨hb, hrest⟩ := hasSub_cons_false h
      simp only [wikiSubF]
      by_cases hc : c = '['
      · simp only [if_pos hc]
        cases rest with
        | nil => simp [hc]
        | cons d rest2 =>
          by_cases hd : d = '['
          · exfalso
            subst hc; subst hd
            simp [begWith, wikiOpen] at hb
          · simp only [if_neg hd]
            rw [ih (d :: rest2) hrest]
      · simp only [if_neg hc]
        rw [ih rest hrest]

theorem mermaidSubF_id : ∀ (f : Nat) (l : List Char), hasSub mOpen l = false →
    mermaidSubF f l = l := by
  intro f
  induction f with
  | zero => intro l _; cases l <;> rfl
  | succ f ih =>
    intro l h
    cases l with
    | nil => rfl
    | cons c rest =>
      obtain ⟨hb, hrest⟩ := hasSub_cons_false h
      simp only [mermaidSubF, hb, Bool.false_eq_true, if_false]
      rw [ih rest hrest]

theorem wikiSub_id {l : List Char} (h : hasSub wikiOpen l = false) : wikiSub l = l :=
  wikiSubF_id l.length l h

theorem mermaidSub_id {l : List Char} (h : hasSub mOpen l = false) : mermaidSub l = l :=
  mermaidSubF_id l.length l h

/-! ## The substitution lemma for a well-formed wiki-link span -/

theorem wikiSubF_span : ∀ (a : List Char) (f : Nat) (t b : List Char),
    (a ++ '[' :: '[' :: (t ++ ']' :: ']' :: b)).length ≤ f →
    hasSub wikiOpen (a ++ ['[']) = false →
    t ≠ [] → (∀ c ∈ t, (c != ']') = true) →
    wikiSubF f (a ++ '[' :: '[' :: (t ++ ']' :: ']' :: b))
      = a ++ wikiReplacement t ++ wikiSub b := by
  intro a
  induction a with
  | nil =>
    intro f t b hf ha ht1 ht2
    simp only [List.nil_append] at hf ⊢
    obtain ⟨f', rfl⟩ : ∃ f', f = f' + 1 := by
      cases f with
      | zero => simp at hf
      | succ f' => exact ⟨f', rfl⟩
    simp only [List.length_cons, List.length_append] at hf
    have hint : (t ++ ']' :: ']' :: b).takeWhile (fun x => x != ']') = t := by
      rw [List.takeWhile_append_of_pos ht2]
      simp [List.takeWhile_cons]
    simp only [wikiSubF, hint]
    rw [List.drop_left' rfl]
    simp only [if_true]
    rw [if_pos ⟨ht1, by simp⟩]
    have hfuel : wikiSubF f' b = wikiSub b := wikiSubF_fuel f' b.length b (by omega) le_rfl
    simp [List.drop_succ_cons, hfuel]
  | cons c a' ih =>
    intro f t b hf ha ht1 ht2
    obtain ⟨f', rfl⟩ : ∃ f', f = f' + 1 := by
      cases f with
      | zero => simp at hf
      | succ f' => exact ⟨f', rfl⟩
    simp only [List.cons_append, List.length_cons, Nat.add_le_add_iff_right] at hf ha ⊢
    obtain ⟨hb, ha'⟩ := hasSub_cons_false ha
    simp only [wikiSubF]
    by_cases hc : c = '['
    · simp only [if_pos hc]
      cases a' with
      | nil =>
        exfalso
        simp [begWith, wikiOpen, hc] at hb
      | cons e a'' =>
        simp only [List.cons_append]
        by_cases he : e = '['
        · exfalso
          simp [begWith, wikiOpen, hc, he] at hb
        · simp only [if_neg he]
          rw [show e :: (a'' ++ '[' :: '[' :: (t ++ ']' :: ']' :: b))
              = (e :: a'') ++ '[' :: '[' :: (t ++ ']' :: ']' :: b) from rfl]
          rw [ih f' t b (by simpa using hf) ha' ht1 ht2]
          simp
    · simp only [if_neg hc]
      rw [ih f' t b hf ha' ht1 ht2]

/-- The wiki-link rewriting stage on a text holding a well-formed span
`[[t]]` (`t` non-empty, free of `]`), where no `[[` opener occurs in or at
the end of the part `a` before the span: the span becomes the
`wiki_link_replacer` anchor element and the scan continues on the rest. -/
theorem wikiSub_span (a t b : List Char)
    (ha : hasSub wikiOpen (a ++ ['[']) = false)
    (ht1 : t ≠ []) (ht2 : ∀ c ∈ t, (c != ']') = true) :
    wikiSub (a ++ '[' :: '[' :: (t ++ ']' :: ']' :: b))
      = a ++ wikiReplacement t ++ wikiSub b :=
  wikiSubF_span a _ t b le_rfl ha ht1 ht2

/-! ## The substitution lemma for a mermaid fenced block -/

theorem drop_length_takeWhile (p : Char → Bool) (l : List Char) :
    l.drop (l.takeWhile p).length = l.dropWhile p := by
  induction l with
  | nil => rfl
  | cons c l ih =>
    by_cases hc : p c
    · simp [List.takeWhile_cons, List.dropWhile_cons, hc, ih]
    · simp [List.takeWhile_cons, List.dropWhile_cons, hc]

theorem begWith_mOpen_false {c : Char} (hc : c ≠ '`') (l : List Char) :
    begWith mOpen (c :: l) = false := by
  have h : ('`' == c) = false := by
    simp [beq_eq_false_iff_ne]
    exact fun h => hc h.symm
  simp [show mOpen = '`' :: '`' :: '`' :: 'm' :: 'e' :: 'r' :: 'm' :: 'a' :: 'i' :: 'd' :: [] from rfl,
    begWith, h]

theorem findBt_free {x : List Char} (hx : ∀ c ∈ x, c ≠ '`') (y : List Char) :
    findBt (x ++ '`' :: '`' :: '`' :: y) = some x.length := by
  induction x with
  | nil =>
    simp only [List.nil_append]
    have : begWith bt3 ('`' :: '`' :: '`' :: y) = true := rfl
    simp [findBt, this]
  | cons c x' ih =>
    have hc : c ≠ '`' := hx c (by simp)
    have hb : begWith bt3 (c :: (x' ++ '`' :: '`' :: '`' :: y)) = false := by
      have h : ('`' == c) = false := by
        simp [beq_eq_false_iff_ne]
        exact fun h => hc h.symm
      simp [show bt3 = '`' :: '`' :: '`' :: [] from rfl, begWith, h]
    simp only [List.cons_append, findBt, List.append_eq, hb, Bool.false_eq_true, if_false]
    rw [ih (fun c hc => hx c (by simp [hc]))]
    simp

theorem mermaidSubF_span : ∀ (a : List Char) (f : Nat) (inner b : List Char),
    (a ++ (mOpen ++ (inner ++ '`' :: '`' :: '`' :: b))).length ≤ f →
    (∀ c ∈ a, c ≠ '`') → (∀ c ∈ inner, c ≠ '`') →
    mermaidSubF f (a ++ (mOpen ++ (inner ++ '`' :: '`' :: '`' :: b)))
      = a ++ (mermaidMark ++ inner.dropWhile isPySpace ++ divClose ++ mermaidSub b) := by
  intro a
  induction a with
  | nil =>
    intro f inner b hf ha hinner
    simp only [List.nil_append] at hf ⊢
    obtain ⟨f', rfl⟩ : ∃ f', f = f' + 1 := by
      cases f with
      | zero =>
        exfalso
        have h10 : mOpen.length = 10 := rfl
        simp only [List.length_append, h10, Nat.le_zero] at hf
        omega
      | succ f' => exact ⟨f', rfl⟩
    have harg : mOpen ++ (inner ++ '`' :: '`' :: '`' :: b)
        = '`' :: '`' :: '`' :: 'm' :: 'e' :: 'r' :: 'm' :: 'a' :: 'i' :: 'd'
          :: (inner ++ '`' :: '`' :: '`' :: b) := rfl
    rw [harg]
    simp only [mermaidSubF]
    rw [if_pos (show begWith mOpen ('`' :: '`' :: '`' :: 'm' :: 'e' :: 'r' :: 'm' :: 'a' :: 'i'
        :: 'd' :: (inner ++ '`' :: '`' :: '`' :: b)) = true from rfl)]
    rw [show List.drop mOpen.length ('`' :: '`' :: '`' :: 'm' :: 'e' :: 'r' :: 'm' :: 'a' :: 'i'
        :: 'd' :: (inner ++ '`' :: '`' :: '`' :: b)) = inner ++ '`' :: '`' :: '`' :: b from rfl]
    rw [drop_length_takeWhile]
    have hbody : (inner ++ '`' :: '`' :: '`' :: b).dropWhile isPySpace
        = inner.dropWhile isPySpace ++ '`' :: '`' :: '`' :: b := by
      rw [List.dropWhile_append]
      by_cases hin : (inner.dropWhile isPySpace).isEmpty
      · rw [if_pos hin]
        rw [List.isEmpty_iff] at hin
        rw [hin, List.nil_append]
        simp [List.dropWhile_cons, isPySpace]
      · rw [if_neg hin]
    rw [hbody]
    have hfree : ∀ c ∈ inner.dropWhile isPySpace, c ≠ '`' := fun c hc =>
      hinner c ((List.dropWhile_sublist isPySpace).subset hc)
    rw [findBt_free hfree b]
    simp only [List.take_left' rfl]
    rw [← List.drop_drop, List.drop_left' rfl]
    have hfuel : mermaidSubF f' b = mermaidSub b := by
      apply mermaidSubF_fuel
      · have h10 : mOpen.length = 10 := rfl
        simp only [harg, List.length_append, List.length_cons, h10] at hf
        omega
      · exact le_rfl
    simp [hfuel]
  | cons c a' ih =>
    intro f inner b hf ha hinner
    obtain ⟨f', rfl⟩ : ∃ f', f = f' + 1 := by
      cases f with
      | zero => simp at hf
      | succ f' => exact ⟨f', rfl⟩
    simp only [List.cons_append, List.length_cons, Nat.add_le_add_iff_right] at hf ⊢
    have hc : c ≠ '`' := ha c (by simp)
    have hb : begWith mOpen (c :: (a' ++ (mOpen ++ (inner ++ '`' :: '`' :: '`' :: b)))) = false :=
      begWith_mOpen_false hc _
    simp only [mermaidSubF, hb, Bool.false_eq_true, if_false]
    rw [ih f' inner b hf (fun x hx => ha x (by simp [hx])) hinner]

/-- The mermaid rewriting stage on a text holding a fenced block
`` ```mermaid<inner>``` `` whose content and preceding part contain no
backtick: the block becomes the `mermaid_replacer` container (its payload
is the captured content: `inner` with the leading whitespace run consumed
by `\s*`), and the scan continues on the rest. -/
theorem mermaidSub_span (a inner b : List Char)
    (ha : ∀ c ∈ a, c ≠ '`') (hinner : ∀ c ∈ inner, c ≠ '`') :
    mermaidSub (a ++ (mOpen ++ (inner ++ '`' :: '`' :: '`' :: b)))
      = a ++ (mermaidMark ++ inner.dropWhile isPySpace ++ divClose ++ mermaidSub b) :=
  mermaidSubF_span a _ inner b le_rfl ha hinner

/-! ## Structure lemmas for `splitlines` -/

theorem splitlinesAux_cons {c : Char} (hc : isLineBreak c = false) (cur l : List Char) :
    splitlinesAux cur (c :: l) = splitlinesAux (c :: cur) l := by
  cases l with
  | nil => simp [splitlinesAux, hc]
  | cons d rest => simp [splitlinesAux, hc]

theorem splitlinesAux_newline (cur l : List Char) :
    splitlinesAux cur ('\n' :: l) = cur.reverse :: splitlinesAux [] l := by
  cases l with
  | nil => simp [splitlinesAux, isLineBreak]
  | cons d rest => simp [splitlinesAux, isLineBreak]

theorem splitlinesAux_append {line : List Char} (h : ∀ c ∈ line, isLineBreak c = false) :
    ∀ (cur l : List Char), splitlinesAux cur (line ++ l) = splitlinesAux (line.reverse ++ cur) l := by
  induction line with
  | nil => intro cur l; simp
  | cons c line' ih =>
    intro cur l
    rw [List.cons_append, splitlinesAux_cons (h c (by simp)) cur (line' ++ l)]
    rw [ih (fun x hx => h x (by simp [hx])) (c :: cur) l]
    simp

theorem splitlinesAux_sep : ∀ (p : List Char) (cur X : List Char),
    splitlinesAux cur (p ++ '\n' :: X)
      = splitlinesAux cur (p ++ ['\n']) ++ splitlinesAux [] X := by
  have hn : isLineBreak '\n' = true := rfl
  have hnr : ('\n' : Char) ≠ '\r' := by decide
  intro p
  induction p with
  | nil =>
    intro cur X
    rw [List.nil_append, List.nil_append, splitlinesAux_newline]
    simp [splitlinesAux, hn]
  | cons c p' ih =>
    intro cur X
    cases p' with
    | nil =>
      by_cases hbrk : isLineBreak c = true
      · by_cases hcr : c = '\r'
        · subst hcr
          have hr : isLineBreak '\r' = true := rfl
          simp [splitlinesAux, hr, hn]
        · have hm : ¬(c = '\r' ∧ ('\n' : Char) = '\n') := fun h => hcr h.1
          have h1 : splitlinesAux cur (c :: '\n' :: X)
              = cur.reverse :: splitlinesAux [] ('\n' :: X) := by
            simp [splitlinesAux, hbrk, hcr]
          have h2 : splitlinesAux cur [c, '\n'] = [cur.reverse, []] := by
            simp [splitlinesAux, hbrk, hcr, hn]
          rw [List.cons_append, List.nil_append, h1, splitlinesAux_newline]
          rw [show (c :: [] : List Char) ++ ['\n'] = [c, '\n'] from rfl, h2]
          simp [splitlinesAux]
      · have hb : isLineBreak c = false := by simpa using hbrk
        rw [List.cons_append, List.nil_append,
          splitlinesAux_cons hb cur ('\n' :: X), splitlinesAux_newline]
        rw [show (c :: [] : List Char) ++ ['\n'] = [c, '\n'] from rfl]
        have h2 : splitlinesAux cur [c, '\n'] = [(c :: cur).reverse] := by
          rw [show ([c, '\n'] : List Char) = c :: ['\n'] from rfl, splitlinesAux_cons hb]
          rw [show splitlinesAux (c :: cur) ['\n'] = [(c :: cur).reverse] from by
            simp [splitlinesAux, hn]]
        rw [h2]
        simp [splitlinesAux]
    | cons e p'' =>
      by_cases hbrk : isLineBreak c = true
      · by_cases hm : c = '\r' ∧ e = '\n'
        · obtain ⟨rfl, rfl⟩ := hm
          have hr : isLineBreak '\r' = true := rfl
          have hunfold : ∀ (cur2 : List Char) (l : List Char),
              splitlinesAux cur2 ('\r' :: '\n' :: l) = cur2.reverse :: splitlinesAux [] l := by
            intro cur2 l
            simp [splitlinesAux, hr]
          have key := ih ([] : List Char) X
          rw [List.cons_append, List.cons_append, splitlinesAux_newline,
            splitlinesAux_newline, List.cons_append] at key
          have key2 := (List.cons.inj key).2
          rw [show '\r' :: '\n' :: p'' ++ '\n' :: X = '\r' :: '\n' :: (p'' ++ '\n' :: X) from rfl]
          rw [show ('\r' :: '\n' :: p'') ++ ['\n'] = '\r' :: '\n' :: (p'' ++ ['\n']) from rfl]
          rw [hunfold, hunfold, key2]
          simp
        · have hunfold : ∀ (l : List Char), splitlinesAux cur (c :: e :: l)
              = cur.reverse :: splitlinesAux [] (e :: l) := by
            intro l
            simp [splitlinesAux, hbrk, hm]
          rw [show c :: e :: p'' ++ '\n' :: X = c :: e :: (p'' ++ '\n' :: X) from rfl]
          rw [show (c :: e :: p'') ++ ['\n'] = c :: e :: (p'' ++ ['\n']) from rfl]
          rw [hunfold, hunfold]
          have key := ih ([] : List Char) X
          rw [List.cons_append, List.cons_append] at key
          rw [key]
          simp
      · have hb : isLineBreak c = false := by simpa using hbrk
        rw [show c :: e :: p'' ++ '\n' :: X = c :: ((e :: p'') ++ '\n' :: X) from rfl]
        rw [show (c :: e :: p'') ++ ['\n'] = c :: ((e :: p'') ++ ['\n']) from rfl]
        rw [splitlinesAux_cons hb, splitlinesAux_cons hb]
        exact ih (c :: cur) X

theorem splitlines_sep (p X : List Char) :
    splitlines (p ++ '\n' :: X) = splitlines (p ++ ['\n']) ++ splitlines X :=
  splitlinesAux_sep p [] X

theorem splitlines_line_sep {line : List Char} (h : ∀ c ∈ line, isLineBreak c = false)
    (X : List Char) : splitlines (line ++ '\n' :: X) = line :: splitlines X := by
  unfold splitlines
  rw [splitlinesAux_append h, splitlinesAux_newline]
  simp

theorem splitlines_no_break {line : List Char} (h : ∀ c ∈ line, isLineBreak c = false) :
    splitlines line = if line = [] then [] else [line] := by
  unfold splitlines
  have h2 := splitlinesAux_append h [] []
  rw [List.append_nil] at h2
  rw [h2]
  by_cases hl : line = [] <;> simp [splitlinesAux, hl]

/-! ## Characterization of the heading pattern -/

theorem pyStrip_eq_nil_iff {l : List Char} :
    pyStrip l = [] ↔ ∀ c ∈ l, isPySpace c = true := by
  unfold pyStrip
  rw [List.reverse_eq_nil_iff, List.dropWhile_eq_nil_iff]
  constructor
  · intro h c hc
    by_cases hws : isPySpace c = true
    · exact hws
    · exfalso
      have hsplit := List.takeWhile_append_dropWhile (p := isPySpace) (l := l)
      rcases List.mem_append.mp (by rw [hsplit]; exact hc) with hin | hin
      · exact hws (List.mem_takeWhile_imp hin)
      · exact hws (h c (List.mem_reverse.mpr hin))
  · intro h c hc
    exact h c ((List.dropWhile_sublist isPySpace).subset (List.mem_reverse.mp hc))

theorem dotPlus_eq_some {l g : List Char} :
    dotPlus l = some g ↔ l.takeWhile (fun c => c != '\n') ≠ [] ∧
      g = l.takeWhile (fun c => c != '\n') := by
  unfold dotPlus
  by_cases h : l.takeWhile (fun c => c != '\n') = [] <;> simp [h, eq_comm]

theorem spaceStarDot_subset {l g : List Char} (h : spaceStarDot l = some g) :
    ∀ x ∈ g, x ∈ l := by
  induction l generalizing g with
  | nil => simp [spaceStarDot] at h
  | cons c rest ih =>
    simp only [spaceStarDot] at h
    by_cases hc : isPySpace c = true
    · rw [if_pos hc] at h
      cases hrec : spaceStarDot rest with
      | some g' =>
        rw [hrec] at h
        cases h
        exact fun x hx => List.mem_cons_of_mem c (ih hrec x hx)
      | none =>
        rw [hrec] at h
        obtain ⟨-, rfl⟩ := dotPlus_eq_some.mp h
        exact fun x hx => (List.takeWhile_sublist _).subset hx
    · rw [if_neg hc] at h
      obtain ⟨-, rfl⟩ := dotPlus_eq_some.mp h
      exact fun x hx => (List.takeWhile_sublist _).subset hx

theorem spaceStarDot_exists {l : List Char} (h : ∃ x ∈ l, isPySpace x = false) :
    ∃ g, spaceStarDot l = some g ∧ ∃ y ∈ g, isPySpace y = false := by
  induction l with
  | nil => simp at h
  | cons c rest ih =>
    by_cases hc : isPySpace c = true
    · obtain ⟨x, hx, hxw⟩ := h
      have hxr : x ∈ rest := by
        rcases List.mem_cons.mp hx with rfl | hr
        · rw [hc] at hxw; cases hxw
        · exact hr
      obtain ⟨g, hg, hy⟩ := ih ⟨x, hxr, hxw⟩
      refine ⟨g, ?_, hy⟩
      simp only [spaceStarDot, if_pos hc, hg]
    · have hcn : (c != '\n') = true := by
        have : isPySpace '\n' = true := rfl
        simp only [bne_iff_ne, ne_eq]
        intro heq
        rw [heq, this] at hc
        exact hc rfl
      refine ⟨(c :: rest).takeWhile (fun c => c != '\n'), ?_, ?_⟩
      · simp only [spaceStarDot, if_neg hc]
        rw [dotPlus_eq_some.mpr]
        constructor
        · rw [List.takeWhile_cons, if_pos hcn]
          simp
        · rfl
      · refine ⟨c, ?_, by simpa using hc⟩
        rw [List.takeWhile_cons, if_pos hcn]
        simp

theorem spacePlusDot_some_head {l g : List Char} (h : spacePlusDot l = some g) :
    ∃ c r, l = c :: r ∧ isPySpace c = true := by
  cases l with
  | nil => simp [spacePlusDot] at h
  | cons c r =>
    refine ⟨c, r, rfl, ?_⟩
    by_cases hc : isPySpace c = true
    · exact hc
    · simp [spacePlusDot, hc] at h

theorem spacePlus_strip_iff (t : List Char) :
    (∃ g, spacePlusDot t = some g ∧ pyStrip g ≠ []) ↔
      ((∃ c r, t = c :: r ∧ isPySpace c = true) ∧ pyStrip t ≠ []) := by
  constructor
  · rintro ⟨g, hg, hstrip⟩
    obtain ⟨c, r, rfl, hc⟩ := spacePlusDot_some_head hg
    refine ⟨⟨c, r, rfl, hc⟩, ?_⟩
    intro habs
    apply hstrip
    rw [pyStrip_eq_nil_iff] at habs ⊢
    have hsub : ∀ x ∈ g, x ∈ c :: r := by
      have : spaceStarDot r = some g := by
        simpa [spacePlusDot, if_pos hc] using hg
      exact fun x hx => List.mem_cons_of_mem c (spaceStarDot_subset this x hx)
    exact fun x hx => habs x (hsub x hx)
  · rintro ⟨⟨c, r, rfl, hc⟩, hstrip⟩
    rw [ne_eq, pyStrip_eq_nil_iff] at hstrip
    push_neg at hstrip
    obtain ⟨x, hx, hxw⟩ := hstrip
    have hxw' : isPySpace x = false := by simpa using hxw
    have hxr : x ∈ r := by
      rcases List.mem_cons.mp hx with rfl | hr
      · rw [hc] at hxw'; cases hxw'
      · exact hr
    obtain ⟨g, hg, y, hy, hyw⟩ := spaceStarDot_exists ⟨x, hxr, hxw'⟩
    refine ⟨g, by simp [spacePlusDot, if_pos hc, hg], ?_⟩
    rw [ne_eq, pyStrip_eq_nil_iff]
    push_neg at *
    exact ⟨y, hy, by simp [hyw]⟩

theorem hashLoop_nil (d : Nat) : hashLoop [] d = none := by
  induction d with
  | zero => rfl
  | succ k ih =>
    have : ([] : List Char).take (k + 1) ≠ List.replicate (k + 1) '#' := by
      simp
    simp only [hashLoop, if_neg this, ih]

theorem hashLoop_some_inv {line : List Char} :
    ∀ {j k : Nat} {g : List Char}, hashLoop line j = some (k, g) →
      1 ≤ k ∧ k ≤ j ∧ line.take k = List.replicate k '#' ∧
        spacePlusDot (line.drop k) = some g := by
  intro j
  induction j with
  | zero => intro k g h; simp [hashLoop] at h
  | succ j ih =>
    intro k g h
    simp only [hashLoop] at h
    by_cases ht : line.take (j + 1) = List.replicate (j + 1) '#'
    · rw [if_pos ht] at h
      cases hsp : spacePlusDot (line.drop (j + 1)) with
      | some g' =>
        rw [hsp] at h
        cases h
        exact ⟨Nat.succ_le_succ (Nat.zero_le j), le_rfl, ht, hsp⟩
      | none =>
        rw [hsp] at h
        obtain ⟨h1, h2, h3, h4⟩ := ih h
        exact ⟨h1, Nat.le_succ_of_le h2, h3, h4⟩
    · rw [if_neg ht] at h
      obtain ⟨h1, h2, h3, h4⟩ := ih h
      exact ⟨h1, Nat.le_succ_of_le h2, h3, h4⟩

theorem take_replicate_head_ws_absurd {line : List Char} {k m : Nat}
    (hkm : k < m) (htm : line.take m = List.replicate m '#')
    {c : Char} {r : List Char} (hd : line.drop k = c :: r) (hc : isPySpace c = true) :
    False := by
  have hck : getElem? line k = some c := by
    have h0 := List.getElem?_drop line k 0
    rw [hd] at h0
    simpa using h0.symm
  have hch : getElem? line k = some '#' := by
    have h1 : getElem? (line.take m) k = getElem? line k :=
      List.getElem?_take_of_lt hkm
    rw [htm] at h1
    rw [← h1, List.getElem?_replicate]
    simp [hkm]
  rw [hck] at hch
  cases hch
  cases hc

theorem hashLoop_some_of {line : List Char} {k : Nat} {g : List Char}
    (hk : 1 ≤ k) (ht : line.take k = List.replicate k '#')
    (hs : spacePlusDot (line.drop k) = some g) :
    ∀ {j : Nat}, k ≤ j → hashLoop line j = some (k, g) := by
  obtain ⟨c, r, hd, hc⟩ := spacePlusDot_some_head hs
  intro j
  induction j with
  | zero => intro h; omega
  | succ j ih =>
    intro hkj
    by_cases heq : k = j + 1
    · subst heq
      simp only [hashLoop, if_pos ht, hs]
    · have hklt : k ≤ j := by omega
      have htk : line.take (j + 1) ≠ List.replicate (j + 1) '#' := by
        intro habs
        exact take_replicate_head_ws_absurd (by omega) habs hd hc
      simp only [hashLoop, if_neg htk]
      exact ih hklt

theorem lineHeading_isSome_iff (d : Nat) (line : List Char) :
    (∃ h, lineHeading d line = some h) ↔
      ∃ k, 1 ≤ k ∧ k ≤ d ∧ line.take k = List.replicate k '#' ∧
        (∃ c r, line.drop k = c :: r ∧ isPySpace c = true) ∧
        pyStrip (line.drop k) ≠ [] := by
  constructor
  · rintro ⟨h, hh⟩
    unfold lineHeading at hh
    cases hloop : hashLoop line d with
    | none => rw [hloop] at hh; cases hh
    | some kg =>
      obtain ⟨k, g⟩ := kg
      rw [hloop] at hh
      simp only at hh
      by_cases hstrip : pyStrip g = []
      · rw [if_pos hstrip] at hh; cases hh
      · obtain ⟨h1, h2, h3, h4⟩ := hashLoop_some_inv hloop
        obtain ⟨hhead, htail⟩ := (spacePlus_strip_iff (line.drop k)).mp ⟨g, h4, hstrip⟩
        exact ⟨k, h1, h2, h3, hhead, htail⟩
  · rintro ⟨k, h1, h2, h3, hhead, htail⟩
    obtain ⟨g, hg, hstrip⟩ := (spacePlus_strip_iff (line.drop k)).mpr ⟨hhead, htail⟩
    refine ⟨⟨k, pyStrip g, generate_anchor (pyStrip g)⟩, ?_⟩
    unfold lineHeading
    rw [hashLoop_some_of h1 h3 hg h2]
    simp only [if_neg hstrip]

theorem extract_headings_single {line : List Char}
    (h : ∀ c ∈ line, isLineBreak c = false) (d : Nat) :
    extract_headings line d = (lineHeading d line).toList := by
  unfold extract_headings
  rw [splitlines_no_break h]
  by_cases hl : line = []
  · subst hl
    simp only [if_pos rfl, List.filterMap_nil]
    have : lineHeading d [] = none := by
      unfold lineHeading
      rw [hashLoop_nil]
    rw [this]
    rfl
  · rw [if_neg hl]
    cases hh : lineHeading d line <;> simp [List.filterMap_cons, hh]

/-! ## Lemmas for the ToC formatting claims -/

theorem pyRepeat_spaces_no_break (n : Nat) :
    ∀ c ∈ pyRepeat "  ".toList n, isLineBreak c = false := by
  induction n with
  | zero => simp [pyRepeat]
  | succ n ih =>
    intro c hc
    unfold pyRepeat at hc ih
    rw [List.replicate_succ, List.flatten_cons] at hc
    rcases List.mem_append.mp hc with h2 | h2
    · have hc' : c = ' ' := by simpa using h2
      subst hc'; rfl
    · exact ih c h2

theorem tocLine_no_break {h : Heading}
    (ht : ∀ c ∈ h.text, isLineBreak c = false)
    (ha : ∀ c ∈ h.anchor, isLineBreak c = false) :
    ∀ c ∈ tocLine h, isLineBreak c = false := by
  intro c hc
  unfold tocLine at hc
  rcases List.mem_append.mp hc with hc | hc
  swap
  · have hc' : c = ')' := by simpa using hc
    subst hc'; rfl
  rcases List.mem_append.mp hc with hc | hc
  swap
  · exact ha c hc
  rcases List.mem_append.mp hc with hc | hc
  swap
  · rw [show "](#".toList = [']', '(', '#'] from rfl] at hc
    fin_cases hc <;> rfl
  rcases List.mem_append.mp hc with hc | hc
  swap
  · exact ht c hc
  rcases List.mem_append.mp hc with hc | hc
  swap
  · rw [show "- [".toList = ['-', ' ', '['] from rfl] at hc
    fin_cases hc <;> rfl
  · exact pyRepeat_spaces_no_break _ c hc

theorem tocLine_ne_nil (h : Heading) : tocLine h ≠ [] := by
  unfold tocLine
  intro habs
  have hlen := congrArg List.length habs
  simp [List.length_append] at hlen

theorem splitlines_joinWith {lines : List (List Char)}
    (h : ∀ l ∈ lines, ∀ c ∈ l, isLineBreak c = false)
    (hne : ∀ l ∈ lines, l ≠ []) (hl : lines ≠ []) :
    splitlines (joinWith ['\n'] lines) = lines := by
  induction lines with
  | nil => cases hl rfl
  | cons x rest ih =>
    cases rest with
    | nil =>
      rw [show joinWith ['\n'] [x] = x from rfl]
      rw [splitlines_no_break (h x (by simp))]
      rw [if_neg (hne x (by simp))]
    | cons y t =>
      have hj : joinWith ['\n'] (x :: y :: t) = x ++ '\n' :: joinWith ['\n'] (y :: t) := by
        rw [show joinWith ['\n'] (x :: y :: t)
            = x ++ ['\n'] ++ joinWith ['\n'] (y :: t) from rfl]
        rw [List.append_assoc]
        rfl
      rw [hj, splitlines_line_sep (h x (by simp))]
      rw [ih (fun l hlm => h l (by simp [hlm])) (fun l hlm => hne l (by simp [hlm]))
        (by simp)]

/-! # The claims -/

/-- **C1**, counterexample to the claim as stated: the source emits the
*stripped* interior as the visible text, so for the input
`"See [[ Project Plan]] for details."` (interior `" Project Plan"`) the
anchor's visible text is `[[Project Plan]]`, not the original bracketed
form `[[ Project Plan]]`; the output the claim demands (trimmed href but
original bracketed visible text) differs from the actual output. -/
theorem C1_counterexample :
    wikiSub ("See [[ Project Plan]] for details.".toList)
      = ("See <a href=\"wikilink://Project%20Plan\" class=\"wikilink\">" ++
          "[[Project Plan]]</a> for details.").toList ∧
    wikiSub ("See [[ Project Plan]] for details.".toList)
      ≠ ("See <a href=\"wikilink://Project%20Plan\" class=\"wikilink\">" ++
          "[[ Project Plan]]</a> for details.").toList := by
  constructor
  · decide
  · decide

/-- **C1** (amended): on any input holding a well-formed wiki-link span
`[[t]]` (interior `t` non-empty and free of `]`; no `[[` opener inside or
at the end of the preceding part), the span is replaced by an anchor of
CSS class `wikilink` whose href is `wikilink://` plus the *trimmed* title
with each space replaced by `%20`, and whose visible text is the *trimmed*
title re-wrapped in double brackets — which coincides with the original
bracketed form whenever the interior carries no leading or trailing
whitespace, as in the spec's example. -/
theorem C1_wikilink_rewrite (a t b : List Char)
    (ha : hasSub wikiOpen (a ++ ['[']) = false)
    (ht1 : t ≠ []) (ht2 : ∀ c ∈ t, (c != ']') = true) :
    wikiSub (a ++ '[' :: '[' :: (t ++ ']' :: ']' :: b))
      = a ++ ("<a href=\"wikilink://".toList ++ pctSpaces (pyStrip t)
          ++ "\" class=\"wikilink\">[[".toList ++ pyStrip t ++ "]]</a>".toList)
        ++ wikiSub b := by
  rw [wikiSub_span a t b ha ht1 ht2]
  rfl

/-- Witness for C1 at the spec's own example
`"See [[Project Plan]] for details."`. -/
theorem C1_wikilink_rewrite_witness :
    wikiSub ("See ".toList ++ '[' :: '[' ::
        ("Project Plan".toList ++ ']' :: ']' :: " for details.".toList))
      = "See ".toList ++ ("<a href=\"wikilink://".toList
          ++ pctSpaces (pyStrip ("Project Plan".toList))
          ++ "\" class=\"wikilink\">[[".toList ++ pyStrip ("Project Plan".toList)
          ++ "]]</a>".toList)
        ++ wikiSub (" for details.".toList) :=
  C1_wikilink_rewrite "See ".toList "Project Plan".toList " for details.".toList
    (by decide) (by decide) (by decide)

/-- **C2** (confirmed): on any input holding a mermaid fenced block
`` ```mermaid<inner>``` `` (content and preceding part free of backticks),
stage 1 replaces the block by an element of the fixed CSS class `mermaid`
whose payload is exactly the captured fence content — `inner` minus the
leading whitespace run consumed by the greedy `\s*` of the pattern —
unmodified, whitespace for whitespace. -/
theorem C2_mermaid_passthrough (a inner b : List Char)
    (ha : ∀ c ∈ a, c ≠ '`') (hinner : ∀ c ∈ inner, c ≠ '`') :
    mermaidSub (a ++ (mOpen ++ (inner ++ '`' :: '`' :: '`' :: b)))
      = a ++ ("<div class=\"mermaid\">".toList ++ inner.dropWhile isPySpace
          ++ "</div>".toList ++ mermaidSub b) := by
  rw [mermaidSub_span a inner b ha hinner]
  rfl

/-- Witness for C2 at the spec's example content `"graph TD\n  X --> Y"`. -/
theorem C2_mermaid_passthrough_witness :
    mermaidSub ("Intro\n".toList ++ (mOpen ++
        ("\ngraph TD\n  X --> Y".toList ++ '`' :: '`' :: '`' :: "\nrest".toList)))
      = "Intro\n".toList ++ ("<div class=\"mermaid\">".toList
          ++ ("\ngraph TD\n  X --> Y".toList).dropWhile isPySpace
          ++ "</div>".toList ++ mermaidSub ("\nrest".toList)) :=
  C2_mermaid_passthrough "Intro\n".toList "\ngraph TD\n  X --> Y".toList "\nrest".toList
    (by decide) (by decide)

/-- **C3** (confirmed): for any line (no line-break characters) and any
`maxDepth ≥ 1` (the pattern `#{1,d}` is ill-formed in Python for `d = 0`),
`extract_headings` yields a heading for the line exactly when the line
starts with `1..maxDepth` literal `#` characters followed by at least one
whitespace character and content that is non-empty after trimming; in
particular (last two conjuncts) a line with more than `maxDepth` leading
`#` yields nothing (no clamping), and a line whose remainder trims to
empty (`"#    "`) yields nothing and raises no error. -/
theorem C3_heading_match_iff (d : Nat) (line : List Char)
    (_hd : 1 ≤ d) (hnb : ∀ c ∈ line, isLineBreak c = false) :
    (extract_headings line d = (lineHeading d line).toList ∧
      ((∃ h, lineHeading d line = some h) ↔
        ∃ k, 1 ≤ k ∧ k ≤ d ∧ line.take k = List.replicate k '#' ∧
          (∃ c r, line.drop k = c :: r ∧ isPySpace c = true) ∧
          pyStrip (line.drop k) ≠ [])) ∧
    lineHeading 3 ("#### x".toList) = none ∧
    lineHeading 3 ("#    ".toList) = none :=
  ⟨⟨extract_headings_single hnb d, lineHeading_isSome_iff d line⟩, by decide, by decide⟩

/-- Witness for C3 at the line `"## Sub heading"` with the default bound. -/
theorem C3_heading_match_iff_witness :
    (extract_headings ("## Sub heading".toList) 3
        = (lineHeading 3 ("## Sub heading".toList)).toList ∧
      ((∃ h, lineHeading 3 ("## Sub heading".toList) = some h) ↔
        ∃ k, 1 ≤ k ∧ k ≤ 3 ∧ ("## Sub heading".toList).take k = List.replicate k '#' ∧
          (∃ c r, ("## Sub heading".toList).drop k = c :: r ∧ isPySpace c = true) ∧
          pyStrip (("## Sub heading".toList).drop k) ≠ [])) ∧
    lineHeading 3 ("#### x".toList) = none ∧
    lineHeading 3 ("#    ".toList) = none :=
  C3_heading_match_iff 3 ("## Sub heading".toList) (by decide) (by decide)

/-- **C4** (confirmed): `format_toc` returns the empty string on the empty
sequence; on a non-empty sequence (whose texts and anchors carry no
line-break characters, as extracted headings do) the output splits into
exactly one line per heading, in input order, each line being
`(level - 1)` repetitions of a 2-space unit followed by
`- [text](#anchor)` (the spec-side line shape `tocLineSpec`). -/
theorem C4_format_toc_lines :
    format_toc [] = [] ∧
    ∀ hs : List Heading, hs ≠ [] →
      (∀ h ∈ hs, (∀ c ∈ h.text, isLineBreak c = false) ∧
        (∀ c ∈ h.anchor, isLineBreak c = false)) →
      splitlines (format_toc hs) = hs.map tocLineSpec := by
  constructor
  · rfl
  · intro hs hne hproper
    unfold format_toc
    rw [if_neg hne]
    have hline_eq : ∀ h : Heading, tocLine h = tocLineSpec h := by
      intro h
      unfold tocLine tocLineSpec pyRepeat
      simp [List.append_assoc]
    rw [splitlines_joinWith
      (fun l hl => by
        obtain ⟨h, hh, rfl⟩ := List.mem_map.mp hl
        exact tocLine_no_break (hproper h hh).1 (hproper h hh).2)
      (fun l hl => by
        obtain ⟨h, hh, rfl⟩ := List.mem_map.mp hl
        exact tocLine_ne_nil h)
      (by simpa using hne)]
    exact List.map_congr_left (fun h _ => hline_eq h)

/-- Witness for C4 on a two-heading sequence. -/
theorem C4_format_toc_lines_witness :
    splitlines (format_toc [⟨1, "A".toList, "a".toList⟩, ⟨2, "B".toList, "b".toList⟩])
      = List.map tocLineSpec
          [⟨1, "A".toList, "a".toList⟩, ⟨2, "B".toList, "b".toList⟩] :=
  C4_format_toc_lines.2 [⟨1, "A".toList, "a".toList⟩, ⟨2, "B".toList, "b".toList⟩]
    (by decide) (by decide)

/-- **C5** (confirmed): the composition of extraction and formatting on
`"# A\n## B\n"` yields exactly `"- [A](#a)\n  - [B](#b)"` — second line
indented two spaces, no trailing newline. -/
theorem C5_toc_roundtrip :
    format_toc (extract_headings ("# A\n## B\n".toList))
      = "- [A](#a)\n  - [B](#b)".toList := by decide

/-- **C6**, counterexample to the claim as stated: the source decides the
script injection by the substring test `'<div class="mermaid">' in
html_body` on the *converted* body, not by whether stage 1 produced a
container.  For the raw-HTML input `<div class="mermaid">x</div>` (no
mermaid fence: stage 1 produces zero containers) the converter passes the
block through (spec §4.3: raw-HTML passthrough; modelled by
`mdPassthrough`), the test fires, and the output does contain the mermaid
initialization snippet. -/
theorem C6_counterexample :
    countMermaid ("<div class=\"mermaid\">x</div>".toList) = 0 ∧
    hasSub initSnippet
      (set_markdown mdPassthrough ("file:///app/_assets/mermaid.min.js".toList)
        ("<div class=\"mermaid\">x</div>".toList)) = true := by
  constructor
  · decide
  · decide

/-- **C6** (amended): the mermaid script-tag reference and initialization
snippet are included exactly when the literal `<div class="mermaid">`
occurs in the *converted* HTML body of the rewritten text: when it does,
the output is the mermaid-branch template and contains both the
script-tag reference to the bundled library and the initialization
snippet; when it does not, the output is the plain template, whose fixed
parts contain no initialization snippet (last conjunct).  This coincides
with "a diagram container was produced in stage 1" only insofar as the
converter preserves exactly the stage-1 containers. -/
theorem C6_script_condition (md : List Char → List Char) (mermaidUrl text : List Char) :
    (hasSub mermaidMark (md (rewrittenText text)) = true →
      set_markdown md mermaidUrl text
          = fullHtmlMermaid mermaidUrl (md (rewrittenText text)) ∧
      hasSub (scrOpen ++ mermaidUrl ++ scrClose) (set_markdown md mermaidUrl text) = true ∧
      hasSub initSnippet (set_markdown md mermaidUrl text) = true) ∧
    (hasSub mermaidMark (md (rewrittenText text)) = false →
      set_markdown md mermaidUrl text = fullHtmlPlain (md (rewrittenText text))) ∧
    hasSub initSnippet (fullHtmlPlain []) = false := by
  refine ⟨?_, ?_, by decide⟩
  · intro hcond
    have hform : set_markdown md mermaidUrl text
        = fullHtmlMermaid mermaidUrl (md (rewrittenText text)) := by
      unfold set_markdown
      rw [if_pos hcond]
    refine ⟨hform, ?_, ?_⟩
    · rw [hform]
      unfold fullHtmlMermaid
      have h1 : hasSub (scrOpen ++ mermaidUrl ++ scrClose)
          ((scrOpen ++ mermaidUrl ++ scrClose) ++ (injectedJs ++ mermaidInit
            ++ md (rewrittenText text) ++ mermaidTail)) = true :=
        hasSub_of_begWith (begWith_append_self _ _)
      have h2 := hasSub_append_right h1 styleHead
      simpa [List.append_assoc] using h2
    · rw [hform]
      unfold fullHtmlMermaid
      have h0 : hasSub initSnippet mermaidInit = true := by decide
      have h1 := hasSub_append_left h0
        (md (rewrittenText text) ++ mermaidTail)
      have h2 := hasSub_append_right h1
        (styleHead ++ (scrOpen ++ mermaidUrl ++ scrClose) ++ injectedJs)
      simpa [List.append_assoc] using h2
  · intro hcond
    unfold set_markdown
    rw [if_neg (by simp [hcond])]

/-- Witness for C6 (amended), mermaid branch, with the passthrough
converter model on an input whose stage 1 produces a container. -/
theorem C6_script_condition_witness :
    set_markdown mdPassthrough ("file:///m.js".toList) ("```mermaid x```".toList)
        = fullHtmlMermaid ("file:///m.js".toList)
            (mdPassthrough (rewrittenText ("```mermaid x```".toList))) ∧
    hasSub (scrOpen ++ "file:///m.js".toList ++ scrClose)
      (set_markdown mdPassthrough ("file:///m.js".toList)
        ("```mermaid x```".toList)) = true ∧
    hasSub initSnippet
      (set_markdown mdPassthrough ("file:///m.js".toList)
        ("```mermaid x```".toList)) = true :=
  (C6_script_condition mdPassthrough ("file:///m.js".toList)
    ("```mermaid x```".toList)).1 (by decide)

/-- **C7** (confirmed): every heading returned by `extract_headings`
carries the anchor computed by `generate_anchor` from that heading's own
text, independently per heading; in particular two headings both named
`"Intro"` both yield anchor `"intro"` — no cross-heading
de-duplication. -/
theorem C7_anchor_per_heading :
    (∀ (d : Nat) (t : List Char), ∀ h ∈ extract_headings t d,
      h.anchor = generate_anchor h.text) ∧
    (extract_headings ("# Intro\n## Intro".toList)).map Heading.anchor
      = ["intro".toList, "intro".toList] := by
  constructor
  · intro d t h hmem
    unfold extract_headings at hmem
    obtain ⟨line, -, hline⟩ := List.mem_filterMap.mp hmem
    unfold lineHeading at hline
    cases hloop : hashLoop line d with
    | none => rw [hloop] at hline; cases hline
    | some kg =>
      obtain ⟨k, g⟩ := kg
      rw [hloop] at hline
      simp only at hline
      by_cases hs : pyStrip g = []
      · rw [if_pos hs] at hline; cases hline
      · rw [if_neg hs] at hline
        cases hline
        rfl
  · decide

/-- Witness for C7: the first `"Intro"` heading of the colliding example
satisfies the per-heading anchor law. -/
theorem C7_anchor_per_heading_witness :
    Heading.anchor ⟨1, "Intro".toList, "intro".toList⟩
      = generate_anchor (Heading.text ⟨1, "Intro".toList, "intro".toList⟩) :=
  C7_anchor_per_heading.1 3 ("# Intro\n## Intro".toList)
    ⟨1, "Intro".toList, "intro".toList⟩ (by decide)

/-- **C8** (confirmed): the embedded rendering pipeline is a pure function
of the document text and the asset path, so two calls with identical
arguments agree; for the injected stateful parser branch
(`convert` then `reset`), two successive calls agree provided `reset`
restores the initial parser state — the contract of the third-party
parser object that the source relies on. -/
theorem C8_set_markdown_deterministic {σ : Type} (p : MdConverter σ) (s0 : σ)
    (mermaidUrl text : List Char) (hreset : ∀ s, p.reset s = s0) :
    (set_markdown_stateful p (set_markdown_stateful p s0 mermaidUrl text).2
        mermaidUrl text).1
      = (set_markdown_stateful p s0 mermaidUrl text).1 := by
  have hsnd : (set_markdown_stateful p s0 mermaidUrl text).2 = s0 := by
    unfold set_markdown_stateful
    simp [hreset]
  rw [hsnd]

/-- Witness for C8 with a concrete stateless converter. -/
theorem C8_set_markdown_deterministic_witness :
    (set_markdown_stateful (⟨fun s t => (t, s), fun _ => ()⟩ : MdConverter Unit)
        (set_markdown_stateful (⟨fun s t => (t, s), fun _ => ()⟩ : MdConverter Unit)
          () ("file:///m.js".toList) ("hello [[A]]".toList)).2
        ("file:///m.js".toList) ("hello [[A]]".toList)).1
      = (set_markdown_stateful (⟨fun s t => (t, s), fun _ => ()⟩ : MdConverter Unit)
          () ("file:///m.js".toList) ("hello [[A]]".toList)).1 :=
  C8_set_markdown_deterministic _ () _ _ (fun _ => rfl)

/-- **C9** (confirmed): the wiki-link substitution runs over the whole raw
text before the generic Markdown conversion and has no notion of fenced
code regions: for any well-formed `[[title]]` span placed inside a
``` ``` ``` code fence, the text handed to the converter carries the
`wiki_link_replacer` markup in place of the span. -/
theorem C9_wiki_rewrite_in_fence (title : List Char)
    (h1 : title ≠ []) (h2 : ∀ c ∈ title, (c != ']') = true)
    (hm : hasSub mOpen ("```\ncode ".toList ++ '[' :: '[' ::
        (title ++ ']' :: ']' :: "\n```".toList)) = false) :
    rewrittenText ("```\ncode ".toList ++ '[' :: '[' ::
        (title ++ ']' :: ']' :: "\n```".toList))
      = "```\ncode ".toList ++ wikiReplacement title ++ "\n```".toList := by
  unfold rewrittenText
  rw [mermaidSub_id hm]
  rw [wikiSub_span _ title _ (by decide) h1 h2]
  rw [show wikiSub ("\n```".toList) = "\n```".toList from by decide]

/-- Witness for C9 at the title `"Note"`. -/
theorem C9_wiki_rewrite_in_fence_witness :
    rewrittenText ("```\ncode ".toList ++ '[' :: '[' ::
        ("Note".toList ++ ']' :: ']' :: "\n```".toList))
      = "```\ncode ".toList ++ wikiReplacement ("Note".toList) ++ "\n```".toList :=
  C9_wiki_rewrite_in_fence ("Note".toList) (by decide) (by decide) (by decide)

/-- **C10** (confirmed): `extract_headings` is line-local and blind to
fenced code blocks: embedding any break-free line between two newline
separators — in particular between the fences of a code block — makes it
contribute exactly its own per-line heading result to the output, in
place. -/
theorem C10_extract_headings_fence_blind (d : Nat) (pre line post : List Char)
    (hline : ∀ c ∈ line, isLineBreak c = false) :
    extract_headings (pre ++ '\n' :: (line ++ '\n' :: post)) d
      = extract_headings (pre ++ ['\n']) d ++ (lineHeading d line).toList
        ++ extract_headings post d := by
  unfold extract_headings
  rw [splitlines_sep pre (line ++ '\n' :: post), splitlines_line_sep hline]
  rw [List.filterMap_append]
  rw [List.append_assoc]
  congr 1
  rw [List.filterMap_cons]
  cases hh : lineHeading d line <;> simp [hh]

/-- Witness for C10: a heading line inside a ``` ``` ``` fence still
yields its ToC entry. -/
theorem C10_extract_headings_fence_blind_witness :
    extract_headings ("```".toList ++ '\n' :: ("# Inside".toList ++ '\n' :: "```".toList)) 3
      = extract_headings ("```".toList ++ ['\n']) 3
        ++ (lineHeading 3 ("# Inside".toList)).toList
        ++ extract_headings ("```".toList) 3 :=
  C10_extract_headings_fence_blind 3 "```".toList "# Inside".toList "```".toList (by decide)
